import Mathlib

/-!
# Verification of the `friendly` human-readable formatting crate

Shallow embedding of the crate's core: `sigfig.rs`, `scale/` (the
prefix/family model and `autoscale`), `quantity.rs` and `temporal.rs`.

64-bit floats are modelled by the inductive `F64`: NaN, the two
infinities, and finite values carried as exact rationals.  Arithmetic on
finite values is idealised as exact rational arithmetic (no rounding, no
overflow, no signed zero); the float classification predicates
(`is_finite`, `is_normal`) use the real binary64 normal range, and
`log10`/`ceil` are idealised as the exact mathematical operations
(`Int.clog`/`Int.log`).  All concrete literals from the crate's tests are
exercised through this exact model.
-/

namespace Friendly

/-- Model of an IEEE-754 binary64 value: NaN, an infinity, or a finite
value carried as an exact rational. -/
inductive F64 where
  | nan : F64
  | posInf : F64
  | negInf : F64
  | fin : ℚ → F64
deriving DecidableEq

/-- `f64::abs` on the rational payload, written with an explicit
comparison (Mathlib's lattice `|·|` does not evaluate). -/
def qabs (q : ℚ) : ℚ := if q < 0 then -q else q

/-- Smallest positive normal binary64 value, `2 ^ (-1022)`. -/
def minNormal : ℚ := 1 / 2 ^ (1022 : ℕ)

/-- Strict upper bound of the finite binary64 range, `2 ^ 1024`. -/
def maxMag : ℚ := 2 ^ (1024 : ℕ)

/-- `f64::is_normal` on a finite (rational) payload: nonzero, not
subnormal, inside the finite range. -/
def isNormalQ (q : ℚ) : Bool :=
  decide (q ≠ 0) && decide (minNormal ≤ qabs q) && decide (qabs q < maxMag)

/-- `f64::is_finite`. -/
def F64.isFinite : F64 → Bool
  | .fin _ => true
  | _ => false

/-- `f64::is_normal`. -/
def F64.isNormal : F64 → Bool
  | .fin q => isNormalQ q
  | _ => false

/-- Payload of a finite value (`0` on NaN/infinities); used only to state
theorems about results that are known to be finite. -/
def F64.q : F64 → ℚ
  | .fin q => q
  | _ => 0

/-- `f64::abs`. -/
def F64.abs : F64 → F64
  | .nan => .nan
  | .posInf => .posInf
  | .negInf => .posInf
  | .fin q => .fin (qabs q)

/-- IEEE `<` on floats: false whenever either side is NaN. -/
def F64.lt : F64 → F64 → Bool
  | .fin a, .fin b => decide (a < b)
  | .negInf, .posInf => true
  | .negInf, .fin _ => true
  | .fin _, .posInf => true
  | _, _ => false

/-- Division of a float by a finite constant, exact on finite values.  In
the crate this is only ever used with the (positive, nonzero) prefix
multipliers, so the `m = 0` subcase of the `fin` branch is unreachable. -/
def F64.divc : F64 → ℚ → F64
  | .fin a, m => .fin (a / m)
  | .nan, _ => .nan
  | .posInf, m => if m < 0 then .negInf else .posInf
  | .negInf, m => if m < 0 then .posInf else .negInf

/-- `f64::round`: round to the nearest integer, halves away from zero. -/
def roundHA (q : ℚ) : ℤ :=
  if 0 ≤ q then ⌊q + 1 / 2⌋ else -⌊-q + 1 / 2⌋

/-- Round to the nearest integer, ties to even: the rounding used by
Rust's fixed-precision float formatting (`write!("{:.prec$}", v)`). -/
def roundTE (q : ℚ) : ℤ :=
  if q - ⌊q⌋ < 1 / 2 then ⌊q⌋
  else if 1 / 2 < q - ⌊q⌋ then ⌊q⌋ + 1
  else if Even ⌊q⌋ then ⌊q⌋ else ⌊q⌋ + 1

/-! ## `sigfig.rs` -/

/-- `sigscale`, translated from `sigfig.rs`.  The float computation
`log = val.abs().log10(); scale = log.ceil(); if log == log.ceil() { scale += 1 }`
is idealised exactly: `Int.clog 10 |q|` is the exact `⌈log10 |q|⌉`, and
`log` is an integer exactly when `|q|` is an integer power of ten, i.e.
`|q| = 10 ^ Int.clog 10 |q|`. -/
def sigscale (val : F64) (sf : ℕ) : F64 × ℕ :=
  match val with
  | .fin q =>
    if isNormalQ q then
      let c : ℤ := Int.clog 10 (qabs q)
      let scale : ℤ := if qabs q = (10 : ℚ) ^ c then c + 1 else c
      let scaleDiff : ℤ := (sf : ℤ) - scale
      let adj : ℚ := (10 : ℚ) ^ scaleDiff
      let adjVal : ℚ := (roundHA (q * adj) : ℚ) / adj
      (.fin adjVal, (max scaleDiff 0).toNat)
    else (val, sf)
  | _ => (val, sf)

/-! ## `scale/mod.rs`: the `Prefix` and `PrefixFamily` traits -/

/-- The per-prefix operations of the `Prefix` trait, bundled as data so
the two concrete families can share the trait-level algorithms. -/
structure PfxOps (P : Type) where
  base : P → ℤ
  exponent : P → ℤ
  multiplier : P → ℚ
  label : P → String

/-- Model of `f64::powi`: exact integer power (negative exponents give
the reciprocal). -/
def qpowi (b : ℚ) (e : ℤ) : ℚ := b ^ e

/-- The `Prefix` trait's default `multiplier`:
`(self.base() as f64).powi(self.exponent())`. -/
def defaultMultiplier (base exponent : ℤ) : ℚ := qpowi (base : ℚ) exponent

/-- `Prefix::scale_value`: divide the value by the prefix multiplier. -/
def scaleValue {P : Type} (ops : PfxOps P) (p : P) (x : F64) : F64 :=
  F64.divc x (ops.multiplier p)

/-- The `PrefixFamily` trait: its unit prefix and ordered prefix list,
together with the per-prefix operations of the associated prefix type. -/
structure FamilyOps (P : Type) where
  ops : PfxOps P
  unitPfx : P
  allPfxs : List P

/-- The `while let Some(next) = iter.next()` loop inside
`PrefixFamily::autoscale`: keep adopting the next candidate until its
scaled absolute value drops below `1.0`. -/
def autoscaleLoop {P : Type} (ops : PfxOps P) (val : F64) : P → List P → P
  | cur, [] => cur
  | cur, next :: rest =>
    if F64.lt (F64.abs (scaleValue ops next val)) (.fin 1) then cur
    else autoscaleLoop ops val next rest

/-- `PrefixFamily::autoscale`.  The empty-list branch is unreachable (the
source `unwrap`s the first prefix; both shipped families are nonempty). -/
def autoscale {P : Type} (F : FamilyOps P) (val : F64) : F64 × P :=
  if !val.isFinite || !val.isNormal then (val, F.unitPfx)
  else
    match F.allPfxs with
    | [] => (val, F.unitPfx)
    | first :: rest =>
      let cur := autoscaleLoop F.ops val first rest
      (scaleValue F.ops cur val, cur)

/-- The `Scale` enum from `scale/mod.rs`. -/
inductive Scale (P : Type) where
  | auto : Scale P
  | native : Scale P
  | fixed : P → Scale P

/-! ## `scale/decimal.rs` -/

/-- A decimal (SI) prefix: label and exponent. -/
structure Decimal where
  pfx : String
  exp : ℤ
deriving DecidableEq

namespace Decimal

def YOCTO : Decimal := ⟨"y", -24⟩
def ZEPTO : Decimal := ⟨"z", -21⟩
def ATTO : Decimal := ⟨"a", -18⟩
def FEMTO : Decimal := ⟨"f", -15⟩
def PICO : Decimal := ⟨"p", -12⟩
def NANO : Decimal := ⟨"n", -9⟩
def MICRO : Decimal := ⟨"Î¼", -6⟩
def MILLI : Decimal := ⟨"m", -3⟩
def UNIT : Decimal := ⟨"", 0⟩
def KILO : Decimal := ⟨"k", 3⟩
def MEGA : Decimal := ⟨"M", 6⟩
def GIGA : Decimal := ⟨"G", 9⟩
def TERA : Decimal := ⟨"T", 12⟩
def PETA : Decimal := ⟨"P", 15⟩
def EXA : Decimal := ⟨"E", 18⟩
def ZETTA : Decimal := ⟨"Z", 21⟩
def YOTTA : Decimal := ⟨"Y", 24⟩

def ALL_PREFIXES : List Decimal :=
  [YOCTO, ZEPTO, ATTO, FEMTO, PICO, NANO, MICRO, MILLI, UNIT,
   KILO, MEGA, GIGA, TERA, PETA, EXA, ZETTA, YOTTA]

end Decimal

/-- The `Prefix` impl for `Decimal`: base 10, stored exponent and label,
and the trait's default `multiplier`. -/
def decimalOps : PfxOps Decimal where
  base := fun _ => 10
  exponent := fun p => p.exp
  multiplier := fun p => defaultMultiplier 10 p.exp
  label := fun p => p.pfx

/-- The `PrefixFamily` impl for `Decimal`.  The flattened source omits the
`unit_prefix` item of this impl; it is `Decimal::UNIT`, per the crate's
tests and the parallel `Binary` impl. -/
def decimalFamily : FamilyOps Decimal where
  ops := decimalOps
  unitPfx := Decimal.UNIT
  allPfxs := Decimal.ALL_PREFIXES

/-! ## `scale/binary.rs` -/

/-- A binary (IEC) prefix: label and exponent. -/
structure Binary where
  pfx : String
  exp : ℤ
deriving DecidableEq

namespace Binary

def UNIT : Binary := ⟨"", 0⟩
def KIBI : Binary := ⟨"Ki", 10⟩
def MEBI : Binary := ⟨"Mi", 20⟩
def GIBI : Binary := ⟨"Gi", 30⟩
def TEBI : Binary := ⟨"Ti", 40⟩
def PEBI : Binary := ⟨"Pi", 50⟩
def EXBI : Binary := ⟨"Ei", 60⟩
def ZEBI : Binary := ⟨"Zi", 70⟩
def YOBI : Binary := ⟨"Yi", 80⟩

def ALL_PREFIXES : List Binary :=
  [UNIT, KIBI, MEBI, GIBI, TEBI, PEBI, EXBI, ZEBI, YOBI]

end Binary

/-- `Binary`'s overridden `multiplier`: `1u128 << self.exp` converted to
`f64`.  The shift is modelled on `ℕ` (the exponents in use are `0..=80`,
within `u128` range) and the conversion is exact, every power of two up
to `2 ^ 80` being exactly representable in binary64. -/
def binaryMultiplier (e : ℤ) : ℚ := ((1 <<< e.toNat : ℕ) : ℚ)

/-- The `Prefix` impl for `Binary`: base 2, stored exponent and label,
and the overridden shift-based `multiplier`. -/
def binaryOps : PfxOps Binary where
  base := fun _ => 2
  exponent := fun p => p.exp
  multiplier := fun p => binaryMultiplier p.exp
  label := fun p => p.pfx

/-- The `PrefixFamily` impl for `Binary`. -/
def binaryFamily : FamilyOps Binary where
  ops := binaryOps
  unitPfx := Binary.UNIT
  allPfxs := Binary.ALL_PREFIXES

/-! ## Fixed-precision rendering (`write!("{:.prec$}", v)`) -/

/-- Left-pad a digit string with zeros to the requested length. -/
def zeroPad (s : String) (len : ℕ) : String :=
  String.mk (List.replicate (len - s.length) '0') ++ s

/-- Rust's fixed-precision rendering of a finite float, on the exact
rational payload: round to `prec` decimal places (ties to even) and print
sign, integer part and zero-padded fractional part.  The sign is kept
even when the rounded magnitude is zero, as Rust does. -/
def fmtFixed (prec : ℕ) (q : ℚ) : String :=
  let n : ℕ := (roundTE (qabs q * 10 ^ prec)).toNat
  let sign := if q < 0 then "-" else ""
  let ip := n / 10 ^ prec
  let fp := n % 10 ^ prec
  sign ++ toString ip ++ (if prec = 0 then "" else "." ++ zeroPad (toString fp) prec)

/-- Rust's fixed-precision rendering of any float (`NaN`/`inf` print as
their names, ignoring the precision). -/
def fmtF64 (prec : ℕ) : F64 → String
  | .nan => "NaN"
  | .posInf => "inf"
  | .negInf => "-inf"
  | .fin q => fmtFixed prec q

/-- Number of decimal digits after the point in the exact (terminating)
decimal expansion of `q`; fuel-bounded (1080 covers every binary64
value, whose denominator is a power of two no larger than `2 ^ 1074`). -/
def decimalsNeeded : ℚ → ℕ → ℕ
  | _, 0 => 0
  | q, fuel + 1 => if q.den = 1 then 0 else decimalsNeeded (q * 10) fuel + 1

/-- Model of `f64`'s own `Display` (`write!("{}", v)`) on the exact
rational payload: the exact terminating decimal expansion, with no
exponent notation.  Under the exact-arithmetic idealisation this is the
shortest representation Rust prints.  It is only consulted on the
native/unscaled formatting path. -/
def f64Display (q : ℚ) : String := fmtFixed (decimalsNeeded q 1080) q

/-! ## `quantity.rs` -/

/-- The `QVal` trait: a quantity's value, as its float conversion
(`as_float`) together with its own native `Display` text. -/
structure QVal where
  float : F64
  disp : String

/-- The `Quantity` struct. -/
structure Quantity (P : Type) where
  value : QVal
  scale : Scale P
  sfx_str : String
  nsig : ℕ
  spc : Bool
  integral : Bool

/-- `Quantity::new`: auto-scaled, empty suffix, 4 significant figures,
space before units, not integral. -/
def Quantity.new {P : Type} (value : QVal) : Quantity P :=
  { value := value, scale := .auto, sfx_str := "", nsig := 4, spc := true,
    integral := false }

/-- `Quantity::suffix`. -/
def Quantity.suffix {P : Type} (q : Quantity P) (s : String) : Quantity P :=
  { q with sfx_str := s }

/-- `Quantity::space`. -/
def Quantity.space {P : Type} (q : Quantity P) (b : Bool) : Quantity P :=
  { q with spc := b }

/-- `Quantity::sig_figs`. -/
def Quantity.sig_figs {P : Type} (q : Quantity P) (sf : ℕ) : Quantity P :=
  { q with nsig := sf }

/-- `impl fmt::Display for Quantity`, as a writer appending to the
formatter's buffer `buf`. -/
def quantityWrite {P : Type} (F : FamilyOps P) (q : Quantity P) (buf : String) :
    String :=
  let scaled : Option (F64 × P) :=
    match q.scale with
    | .native => none
    | .auto => some (autoscale F q.value.float)
    | .fixed s => some (scaleValue F.ops s q.value.float, s)
  -- "don't rescale unscaled integral values"
  let scaled := scaled.filter (fun sp => F.ops.exponent sp.2 != 0 || !q.integral)
  match scaled with
  | some (sv, scale) =>
    let r := sigscale sv q.nsig
    let buf := buf ++ fmtF64 r.2 r.1
    let sl := F.ops.label scale
    let buf := if q.spc && (!sl.isEmpty || !q.sfx_str.isEmpty) then buf ++ " " else buf
    buf ++ sl ++ q.sfx_str
  | none =>
    let buf := buf ++ q.value.disp
    let buf := if q.spc && !q.sfx_str.isEmpty then buf ++ " " else buf
    buf ++ q.sfx_str

/-- `Quantity`'s rendering on an empty formatter (`to_string`). -/
def quantityFmt {P : Type} (F : FamilyOps P) (q : Quantity P) : String :=
  quantityWrite F q ""

/-- `lib.rs::scalar`: an ordinary auto-scaled decimal quantity. -/
def scalar (v : QVal) : Quantity Decimal := Quantity.new v

/-! ## `temporal.rs` -/

def MIN_SECS : ℚ := 60
def HOUR_SECS : ℚ := MIN_SECS * 60
def DAY_SECS : ℚ := HOUR_SECS * 24
def WEEK_SECS : ℚ := DAY_SECS * 7

/-- The `HumanDuration` struct: seconds (an `f64`, modelled as the exact
rational it holds), compactness flag, and maximum part count (`i32`). -/
structure HumanDuration where
  seconds : ℚ
  compact : Bool
  parts : ℤ

/-- `HumanDuration::new_from_secs`: compact, 3 parts. -/
def HumanDuration.new_from_secs (s : ℚ) : HumanDuration :=
  { seconds := s, compact := true, parts := 3 }

/-- `temporal.rs::seconds`. -/
def seconds (secs : ℚ) : HumanDuration := HumanDuration.new_from_secs secs

/-- Truncation toward zero, as float-to-integer truncation. -/
def truncQ (q : ℚ) : ℤ := if 0 ≤ q then ⌊q⌋ else ⌈q⌉

/-- Rust's `%` on floats (`fmod`): remainder with the sign of the
dividend; exact on exact inputs. -/
def rustRem (a b : ℚ) : ℚ := a - b * truncQ (a / b)

/-- The `PartWriter` helper of `temporal.rs`, with the formatter's output
buffer inlined as `out`. -/
structure PartWriter where
  out : String
  parts : ℤ
  written : ℤ
  compact : Bool

/-- `PartWriter::new`. -/
def PartWriter.new (buf : String) (d : HumanDuration) : PartWriter :=
  { out := buf, parts := d.parts, written := 0, compact := d.compact }

/-- `PartWriter::keep_going`: the part cap is unlimited (`<= 0`) or not
yet reached. -/
def PartWriter.keepGoing (pw : PartWriter) : Bool :=
  decide (pw.parts ≤ 0) || decide (pw.written < pw.parts)

/-- `PartWriter::put_part`: floor the value when printed with 0 decimal
places, emit the verbose separator space, the fixed-precision value, and
the short or long unit name. -/
def PartWriter.putPart (pw : PartWriter) (val : ℚ) (prec : ℕ)
    (short long : String) : PartWriter :=
  let v : ℚ := if prec = 0 then (⌊val⌋ : ℚ) else val
  let out := if decide (pw.written > 0) && !pw.compact then pw.out ++ " " else pw.out
  let out := out ++ fmtFixed prec v
  let out := if pw.compact then out ++ short else out ++ " " ++ long
  { pw with out := out, written := pw.written + 1 }

/-- `impl fmt::Display for HumanDuration`, as a writer appending to the
formatter's buffer `buf`. -/
def durationWrite (d : HumanDuration) (buf : String) : String :=
  if qabs d.seconds < MIN_SECS then
    quantityWrite decimalFamily
      (((scalar { float := .fin d.seconds, disp := f64Display d.seconds }).suffix
        "s").space (!d.compact)) buf
  else
    let pw := PartWriter.new buf d
    let pw := if pw.keepGoing && decide (d.seconds > WEEK_SECS) then
        pw.putPart (d.seconds / WEEK_SECS) 0 "w" "weeks" else pw
    let pw := if pw.keepGoing && decide (d.seconds > DAY_SECS) then
        pw.putPart (rustRem d.seconds WEEK_SECS / DAY_SECS) 0 "d" "days" else pw
    let pw := if pw.keepGoing && decide (d.seconds > HOUR_SECS) then
        pw.putPart (rustRem d.seconds DAY_SECS / HOUR_SECS) 0 "h" "hours" else pw
    let pw := if pw.keepGoing && decide (d.seconds > MIN_SECS) then
        pw.putPart (rustRem d.seconds HOUR_SECS / MIN_SECS) 0 "m" "minutes" else pw
    let pw := if pw.keepGoing then
        pw.putPart (rustRem d.seconds MIN_SECS) 2 "s" "seconds" else pw
    pw.out

/-- `HumanDuration`'s rendering on an empty formatter (`to_string`). -/
def durationFmt (d : HumanDuration) : String := durationWrite d ""

/-! ## Spec-side descriptions used in stating the claims -/

/-- The prefix that the specification describes `autoscale` as choosing
for a normal value: scanning from the first prefix, adopt each subsequent
candidate whose scaled magnitude is at least `1.0`, stop at the first
whose scaled magnitude falls below `1.0`, and keep the last adopted
prefix. -/
def scanChosen {P : Type} (ops : PfxOps P) (q : ℚ) (first : P) (rest : List P) :
    P :=
  (rest.takeWhile fun p => decide (1 ≤ |q / ops.multiplier p|)).getLastD first

/-- One duration component as the specification describes it: an optional
emission threshold (the unit's span; absent for the seconds component,
which is always emitted when reached), the component value, its printed
precision, and its short and long unit names. -/
structure DurPart where
  threshold : Option ℚ
  value : ℚ
  prec : ℕ
  short : String
  long : String

/-- The five components of a duration in descending order, with the
values the specification prescribes: weeks is `seconds / week-span`
directly; days, hours, minutes and seconds each take the remainder
modulo the next-larger unit's span divided by their own span. -/
def durParts (s : ℚ) : List DurPart :=
  [⟨some WEEK_SECS, s / WEEK_SECS, 0, "w", "weeks"⟩,
   ⟨some DAY_SECS, rustRem s WEEK_SECS / DAY_SECS, 0, "d", "days"⟩,
   ⟨some HOUR_SECS, rustRem s DAY_SECS / HOUR_SECS, 0, "h", "hours"⟩,
   ⟨some MIN_SECS, rustRem s HOUR_SECS / MIN_SECS, 0, "m", "minutes"⟩,
   ⟨none, rustRem s MIN_SECS, 2, "s", "seconds"⟩]

/-- Rendering of one emitted component: components printed with 0
decimals are floored; a separating space precedes every non-first
component in verbose mode; compact mode glues the short unit name,
verbose mode appends a space and the long name. -/
def renderPart (compact notFirst : Bool) (p : DurPart) : String :=
  (if notFirst && !compact then " " else "") ++
    fmtFixed p.prec (if p.prec = 0 then (⌊p.value⌋ : ℚ) else p.value) ++
    (if compact then p.short else " " ++ p.long)

/-- The specification's emission rule, walking the components in order: a
component is emitted when the part cap (`cap ≤ 0` meaning unlimited) has
not been reached and the total duration exceeds its threshold (a
threshold-free component is emitted whenever the cap allows). -/
def specDurGo (s : ℚ) (compact : Bool) (cap : ℤ) :
    List DurPart → ℤ → String
  | [], _ => ""
  | p :: ps, written =>
    if decide (cap ≤ 0) || decide (written < cap) then
      match p.threshold with
      | some t =>
        if decide (s > t) then
          renderPart compact (decide (written > 0)) p
            ++ specDurGo s compact cap ps (written + 1)
        else specDurGo s compact cap ps written
      | none =>
        renderPart compact (decide (written > 0)) p
          ++ specDurGo s compact cap ps (written + 1)
    else specDurGo s compact cap ps written

/-- One conditional `put_part` block of the duration formatter, as a
function of the `PartWriter` state. -/
def stepPart (s : ℚ) (p : DurPart) (pw : PartWriter) : PartWriter :=
  if pw.keepGoing && (match p.threshold with
      | some t => decide (s > t)
      | none => true) then
    pw.putPart p.value p.prec p.short p.long
  else pw

/-- The sequence of conditional `put_part` blocks. -/
def stepAll (s : ℚ) : List DurPart → PartWriter → PartWriter
  | [], pw => pw
  | p :: ps, pw => stepAll s ps (stepPart s p pw)

/-! ## Helper lemmas -/

theorem qabs_eq (q : ℚ) : qabs q = |q| := by
  unfold qabs
  split_ifs with h
  · exact (abs_of_neg h).symm
  · exact (abs_of_nonneg (not_lt.mp h)).symm

theorem isNormalQ_iff {q : ℚ} :
    isNormalQ q = true ↔ q ≠ 0 ∧ minNormal ≤ |q| ∧ |q| < maxMag := by
  simp [isNormalQ, qabs_eq, and_assoc]

theorem isNormalQ_ne_zero {q : ℚ} (h : isNormalQ q = true) : q ≠ 0 :=
  (isNormalQ_iff.mp h).1

/-- Sufficient condition for normality, with bounds small enough for
`norm_num` to check on concrete inputs. -/
theorem isNormalQ_of (q : ℚ) (h0 : q ≠ 0) (hlo : 1 / 2 ^ (64 : ℕ) ≤ |q|)
    (hhi : |q| < 2 ^ (64 : ℕ)) : isNormalQ q = true := by
  rw [isNormalQ_iff]
  have h1 : (0 : ℚ) < 2 ^ (64 : ℕ) := by positivity
  have h2 : (2 : ℚ) ^ (64 : ℕ) ≤ 2 ^ (1022 : ℕ) :=
    pow_le_pow_right₀ one_le_two (by norm_num)
  have h3 : (2 : ℚ) ^ (64 : ℕ) ≤ 2 ^ (1024 : ℕ) :=
    pow_le_pow_right₀ one_le_two (by norm_num)
  refine ⟨h0, le_trans ?_ hlo, lt_of_lt_of_le hhi ?_⟩
  · unfold minNormal
    exact one_div_le_one_div_of_le h1 h2
  · unfold maxMag
    exact h3

/-- The source's `ceil(log10 r)` with the exact-power-of-ten bump is the
same integer as `Int.log 10 r + 1` (the count of digits left of the
decimal point, possibly negative). -/
theorem clog_bump_eq_log_succ (r : ℚ) (hr : 0 < r) :
    (if r = (10 : ℚ) ^ Int.clog 10 r then Int.clog 10 r + 1 else Int.clog 10 r)
      = Int.log 10 r + 1 := by
  have hb : (1 : ℕ) < 10 := by norm_num
  have hten : ((10 : ℕ) : ℚ) = (10 : ℚ) := by norm_num
  have h1 := Int.zpow_log_le_self (R := ℚ) hb hr
  have h2 := Int.lt_zpow_succ_log_self (R := ℚ) hb r
  have h3 := Int.self_le_zpow_clog (R := ℚ) hb r
  have h4 := Int.zpow_pred_clog_lt_self (R := ℚ) hb hr
  rw [hten] at h1 h2 h3 h4
  have hmono : ∀ m k : ℤ, (10 : ℚ) ^ m < (10 : ℚ) ^ k → m < k := fun m k hmk =>
    (zpow_lt_zpow_iff_right₀ (by norm_num : (1 : ℚ) < 10)).mp hmk
  have hmono' : ∀ m k : ℤ, (10 : ℚ) ^ m ≤ (10 : ℚ) ^ k → m ≤ k := fun m k hmk =>
    (zpow_le_zpow_iff_right₀ (by norm_num : (1 : ℚ) < 10)).mp hmk
  split_ifs with h
  · have hle : Int.log 10 r ≤ Int.clog 10 r := hmono' _ _ (h ▸ h1)
    have hlt : Int.clog 10 r < Int.log 10 r + 1 := hmono _ _ (h ▸ h2)
    omega
  · have hlt : Int.log 10 r < Int.clog 10 r :=
      hmono _ _ (lt_of_le_of_lt h1 (lt_of_le_of_ne h3 h))
    have hlt' : Int.clog 10 r - 1 < Int.log 10 r + 1 := hmono _ _ (lt_trans h4 h2)
    omega

/-! ## Claim theorems -/

/-- Claim C2: `sigscale` passes every non-normal value through unchanged
with the requested figure count; on a normal value it rounds by
multiply-round-divide with `10 ^ (n - scale)` where
`scale = ⌈log10 |v|⌉`, bumped by one on exact powers of ten — which is
`Int.log 10 |v| + 1` — and returns `max (n - scale) 0` decimals. -/
theorem sigscale_correct (val : F64) (n : ℕ) :
    (val.isNormal = false → sigscale val n = (val, n)) ∧
    (∀ q : ℚ, val = .fin q → val.isNormal = true →
      sigscale val n =
        (.fin ((roundHA (q * 10 ^ ((n : ℤ) - (Int.log 10 |q| + 1))) : ℚ) /
            10 ^ ((n : ℤ) - (Int.log 10 |q| + 1))),
          (max ((n : ℤ) - (Int.log 10 |q| + 1)) 0).toNat)) := by
  constructor
  · intro h
    cases val with
    | nan => rfl
    | posInf => rfl
    | negInf => rfl
    | fin q =>
      have hq : isNormalQ q = false := h
      simp [sigscale, hq]
  · rintro q rfl hn
    have hq : isNormalQ q = true := hn
    have hq0 : (0 : ℚ) < |q| := abs_pos.mpr (isNormalQ_ne_zero hq)
    simp only [sigscale, hq, if_true, qabs_eq]
    rw [clog_bump_eq_log_succ |q| hq0]

theorem sigscale_correct_witness :
    sigscale (.fin 5) 4 =
      (.fin ((roundHA (5 * 10 ^ ((4 : ℤ) - (Int.log 10 |(5 : ℚ)| + 1))) : ℚ) /
          10 ^ ((4 : ℤ) - (Int.log 10 |(5 : ℚ)| + 1))),
        (max ((4 : ℤ) - (Int.log 10 |(5 : ℚ)| + 1)) 0).toNat) :=
  (sigscale_correct (.fin 5) 4).2 5 rfl
    (show isNormalQ 5 = true from
      isNormalQ_of 5 (by norm_num) (by norm_num) (by norm_num))

/-- The `autoscale` loop computes exactly the scan described by the
specification. -/
theorem autoscaleLoop_eq_scan {P : Type} (ops : PfxOps P) (q : ℚ) :
    ∀ (rest : List P) (cur : P),
      autoscaleLoop ops (.fin q) cur rest = scanChosen ops q cur rest := by
  intro rest
  induction rest with
  | nil => intro cur; rfl
  | cons next rest ih =>
    intro cur
    have hc : F64.lt (F64.abs (scaleValue ops next (.fin q))) (.fin 1)
        = decide (|q / ops.multiplier next| < 1) := by
      simp [scaleValue, F64.divc, F64.abs, F64.lt, qabs_eq]
    by_cases h : |q / ops.multiplier next| < 1
    · rw [autoscaleLoop, hc, decide_eq_true h, if_pos rfl]
      unfold scanChosen
      rw [List.takeWhile_cons_of_neg (by simpa using h)]
      rfl
    · rw [autoscaleLoop, hc, decide_eq_false h, if_neg Bool.false_ne_true, ih next]
      unfold scanChosen
      rw [List.takeWhile_cons_of_pos (by simpa using not_lt.mp h),
        List.getLastD_cons]

/-- Claim C1: `autoscale` returns `(value, unit prefix)` whenever the
value is not a finite normal float; otherwise it scans the ordered prefix
list from the first prefix, adopting each subsequent candidate whose
scaled magnitude is `≥ 1.0`, stopping at the first whose scaled magnitude
is `< 1.0`, and returns the value scaled by the last adopted prefix
together with that prefix. -/
theorem autoscale_scan (P : Type) (F : FamilyOps P) (val : F64)
    (first : P) (rest : List P) (hp : F.allPfxs = first :: rest) :
    (val.isNormal = false → autoscale F val = (val, F.unitPfx)) ∧
    (∀ q : ℚ, val = .fin q → val.isNormal = true →
      autoscale F val =
        (scaleValue F.ops (scanChosen F.ops q first rest) val,
          scanChosen F.ops q first rest)) := by
  constructor
  · intro h
    unfold autoscale
    rw [h]
    simp
  · rintro q rfl hn
    unfold autoscale
    have hguard : (!(F64.fin q).isFinite || !(F64.fin q).isNormal) = false := by
      simp [F64.isFinite, hn]
    rw [hguard, hp]
    simp only [Bool.false_eq_true, if_false]
    rw [autoscaleLoop_eq_scan]

theorem autoscale_scan_witness :
    autoscale binaryFamily (.fin 5) =
      (scaleValue binaryFamily.ops
        (scanChosen binaryFamily.ops 5 Binary.UNIT
          [Binary.KIBI, Binary.MEBI, Binary.GIBI, Binary.TEBI, Binary.PEBI,
            Binary.EXBI, Binary.ZEBI, Binary.YOBI]) (.fin 5),
        scanChosen binaryFamily.ops 5 Binary.UNIT
          [Binary.KIBI, Binary.MEBI, Binary.GIBI, Binary.TEBI, Binary.PEBI,
            Binary.EXBI, Binary.ZEBI, Binary.YOBI]) :=
  (autoscale_scan Binary binaryFamily (.fin 5) Binary.UNIT
      [Binary.KIBI, Binary.MEBI, Binary.GIBI, Binary.TEBI, Binary.PEBI,
        Binary.EXBI, Binary.ZEBI, Binary.YOBI] rfl).2 5 rfl
    (show isNormalQ 5 = true from
      isNormalQ_of 5 (by norm_num) (by norm_num) (by norm_num))

/-- On a normal value, `autoscale` runs the loop over the (nonempty)
prefix list and rescales by the loop's result. -/
theorem autoscale_normal {P : Type} (F : FamilyOps P) (q : ℚ)
    (hn : isNormalQ q = true) (first : P) (rest : List P)
    (hp : F.allPfxs = first :: rest) :
    autoscale F (.fin q) =
      (scaleValue F.ops (autoscaleLoop F.ops (.fin q) first rest) (.fin q),
        autoscaleLoop F.ops (.fin q) first rest) := by
  unfold autoscale
  have hguard : (!(F64.fin q).isFinite || !(F64.fin q).isNormal) = false := by
    simp [F64.isFinite, F64.isNormal, hn]
  rw [hguard, hp]
  simp only [Bool.false_eq_true, if_false]

/-- The loop's result is drawn from the candidate list. -/
theorem autoscaleLoop_mem {P : Type} (ops : PfxOps P) (val : F64) :
    ∀ (rest : List P) (cur : P), autoscaleLoop ops val cur rest ∈ cur :: rest := by
  intro rest
  induction rest with
  | nil =>
    intro cur
    rw [autoscaleLoop]
    exact List.mem_singleton.mpr rfl
  | cons next rest ih =>
    intro cur
    rw [autoscaleLoop]
    by_cases hcond : F64.lt (F64.abs (scaleValue ops next val)) (.fin 1) = true
    · rw [if_pos hcond]
      exact List.mem_cons_self _ _
    · rw [if_neg hcond]
      exact List.mem_cons_of_mem _ (ih next)

/-- Either the loop keeps the initial prefix, or its result's scaled
magnitude is at least one. -/
theorem autoscaleLoop_lower {P : Type} (ops : PfxOps P) (q : ℚ) :
    ∀ (rest : List P) (cur : P),
      autoscaleLoop ops (.fin q) cur rest = cur ∨
        1 ≤ |q / ops.multiplier (autoscaleLoop ops (.fin q) cur rest)| := by
  intro rest
  induction rest with
  | nil =>
    intro cur
    left
    rfl
  | cons next rest ih =>
    intro cur
    have hc : F64.lt (F64.abs (scaleValue ops next (.fin q))) (.fin 1)
        = decide (|q / ops.multiplier next| < 1) := by
      simp [scaleValue, F64.divc, F64.abs, F64.lt, qabs_eq]
    by_cases h : |q / ops.multiplier next| < 1
    · left
      rw [autoscaleLoop, hc, decide_eq_true h, if_pos rfl]
    · rw [autoscaleLoop, hc, decide_eq_false h, if_neg Bool.false_ne_true]
      rcases ih next with h1 | h1
      · right
        rw [h1]
        exact not_lt.mp h
      · right
        exact h1

/-- `getLastD` of a nonempty list ignores the default. -/
theorem getLastD_cons_irrel {A : Type} (a : A) (l : List A) (d d' : A) :
    (a :: l).getLastD d = (a :: l).getLastD d' := by
  rw [List.getLastD_cons, List.getLastD_cons]

/-- Either the loop reaches the last prefix, or it stops at a position
whose successor's scaled magnitude is below one. -/
theorem autoscaleLoop_upper {P : Type} (ops : PfxOps P) (q : ℚ) :
    ∀ (rest : List P) (cur : P),
      autoscaleLoop ops (.fin q) cur rest = (cur :: rest).getLastD cur ∨
        ∃ i : ℕ, ∃ hlen : i + 1 < (cur :: rest).length,
          autoscaleLoop ops (.fin q) cur rest
              = (cur :: rest).get ⟨i, Nat.lt_of_succ_lt hlen⟩ ∧
            |q / ops.multiplier ((cur :: rest).get ⟨i + 1, hlen⟩)| < 1 := by
  intro rest
  induction rest with
  | nil =>
    intro cur
    left
    rfl
  | cons next rest ih =>
    intro cur
    have hc : F64.lt (F64.abs (scaleValue ops next (.fin q))) (.fin 1)
        = decide (|q / ops.multiplier next| < 1) := by
      simp [scaleValue, F64.divc, F64.abs, F64.lt, qabs_eq]
    by_cases h : |q / ops.multiplier next| < 1
    · right
      refine ⟨0, by simp, ?_, by simpa using h⟩
      rw [autoscaleLoop, hc, decide_eq_true h, if_pos rfl]
      rfl
    · rw [autoscaleLoop, hc, decide_eq_false h, if_neg Bool.false_ne_true]
      rcases ih next with h1 | ⟨i, hlen, h1, h2⟩
      · left
        have e1 : (cur :: next :: rest).getLastD cur
            = (next :: rest).getLastD cur := List.getLastD_cons _ _ _
        rw [h1, e1]
        exact getLastD_cons_irrel next rest next cur
      · right
        refine ⟨i + 1, by simpa using Nat.succ_lt_succ hlen, ?_, by simpa using h2⟩
        simpa using h1

/-- Every decimal multiplier is positive. -/
theorem decimal_multiplier_pos (p : Decimal) : 0 < decimalOps.multiplier p := by
  show (0 : ℚ) < (10 : ℚ) ^ p.exp
  exact zpow_pos (by norm_num) _

/-- Every binary multiplier is positive. -/
theorem binary_multiplier_pos (p : Binary) : 0 < binaryOps.multiplier p := by
  show (0 : ℚ) < ((1 <<< p.exp.toNat : ℕ) : ℚ)
  rw [Nat.shiftLeft_eq]
  positivity

/-- Generic round-trip: on a normal value the scaled result times the
chosen multiplier recovers the value exactly. -/
theorem autoscale_round_trip_aux {P : Type} (F : FamilyOps P)
    (hm : ∀ p : P, F.ops.multiplier p ≠ 0) (q : ℚ) (hn : isNormalQ q = true)
    (first : P) (rest : List P) (hp : F.allPfxs = first :: rest) :
    F64.q (autoscale F (.fin q)).1 * F.ops.multiplier (autoscale F (.fin q)).2
      = q := by
  rw [autoscale_normal F q hn first rest hp]
  show q / F.ops.multiplier (autoscaleLoop F.ops (.fin q) first rest) *
      F.ops.multiplier (autoscaleLoop F.ops (.fin q) first rest) = q
  exact div_mul_cancel₀ q (hm _)

/-- Adjacent decimal prefixes have multipliers in ratio `1000`. -/
theorem decimal_chain :
    List.Chain' (fun a b => decimalOps.multiplier b = 1000 * decimalOps.multiplier a)
      Decimal.ALL_PREFIXES := by
  simp only [Decimal.ALL_PREFIXES, List.chain'_cons, List.chain'_singleton, and_true]
  norm_num [decimalOps, defaultMultiplier, qpowi, Decimal.YOCTO, Decimal.ZEPTO,
    Decimal.ATTO, Decimal.FEMTO, Decimal.PICO, Decimal.NANO, Decimal.MICRO,
    Decimal.MILLI, Decimal.UNIT, Decimal.KILO, Decimal.MEGA, Decimal.GIGA,
    Decimal.TERA, Decimal.PETA, Decimal.EXA, Decimal.ZETTA, Decimal.YOTTA]

/-- Adjacent binary prefixes have multipliers in ratio `1024`. -/
theorem binary_chain :
    List.Chain' (fun a b => binaryOps.multiplier b = 1024 * binaryOps.multiplier a)
      Binary.ALL_PREFIXES := by
  simp only [Binary.ALL_PREFIXES, List.chain'_cons, List.chain'_singleton,
    and_true, binaryOps, binaryMultiplier, Int.reduceToNat, Nat.shiftLeft_eq,
    Binary.UNIT, Binary.KIBI, Binary.MEBI, Binary.GIBI, Binary.TEBI,
    Binary.PEBI, Binary.EXBI, Binary.ZEBI, Binary.YOBI]
  norm_num

/-- Generic interval bounds for `autoscale` on a family whose adjacent
multipliers are in a constant ratio: away from the first prefix the scaled
magnitude is at least `1`, and away from the last it is below the ratio. -/
theorem autoscale_interval_aux {P : Type} (F : FamilyOps P) (ratio : ℚ)
    (hm : ∀ p : P, 0 < F.ops.multiplier p)
    (hchain : List.Chain'
      (fun a b => F.ops.multiplier b = ratio * F.ops.multiplier a) F.allPfxs)
    (q : ℚ) (hn : isNormalQ q = true)
    (first : P) (rest : List P) (hp : F.allPfxs = first :: rest) :
    ((autoscale F (.fin q)).2 ≠ first → 1 ≤ |F64.q (autoscale F (.fin q)).1|) ∧
    ((autoscale F (.fin q)).2 ≠ (first :: rest).getLastD first →
      |F64.q (autoscale F (.fin q)).1| < ratio) := by
  rw [autoscale_normal F q hn first rest hp]
  rw [hp] at hchain
  constructor
  · intro hne
    rcases autoscaleLoop_lower F.ops q rest first with h1 | h1
    · exact absurd h1 hne
    · exact h1
  · intro hne
    rcases autoscaleLoop_upper F.ops q rest first with h1 | ⟨i, hlen, h1, h2⟩
    · exact absurd h1 hne
    · have hadj := List.chain'_iff_get.mp hchain i (by
        simp only [List.length_cons] at hlen ⊢
        omega)
      have hadj' : F.ops.multiplier ((first :: rest).get ⟨i + 1, hlen⟩)
          = ratio * F.ops.multiplier ((first :: rest).get ⟨i, Nat.lt_of_succ_lt hlen⟩) :=
        hadj
      have hqlt : |q| < F.ops.multiplier ((first :: rest).get ⟨i + 1, hlen⟩) := by
        rw [abs_div, abs_of_pos (hm _)] at h2
        exact (div_lt_one (hm _)).mp h2
      show |q / F.ops.multiplier (autoscaleLoop F.ops (.fin q) first rest)| < ratio
      rw [h1, abs_div, abs_of_pos (hm _), div_lt_iff₀ (hm _)]
      rw [hadj'] at hqlt
      exact hqlt

/-- Counterexample to claim C4 as stated: `3000` is finite, nonzero and
well inside the binary family's representable range; binary `autoscale`
picks `Ki` — an interior prefix, not an extreme of the range — yet the
scaled magnitude `3000 / 1024 = 375/128` is not in `[1, 2)` (`base = 2`). -/
theorem autoscale_base_interval_cex :
    (autoscale binaryFamily (.fin 3000)).2 = Binary.KIBI ∧
    Binary.KIBI ≠ Binary.UNIT ∧ Binary.KIBI ≠ Binary.YOBI ∧
    F64.q (autoscale binaryFamily (.fin 3000)).1 = 375 / 128 ∧
    ¬ |(375 : ℚ) / 128| < 2 := by
  have hn : isNormalQ 3000 = true :=
    isNormalQ_of 3000 (by norm_num) (by norm_num) (by norm_num)
  have hmKi : binaryOps.multiplier Binary.KIBI = 1024 := by
    simp only [binaryOps, binaryMultiplier, Binary.KIBI, Int.reduceToNat,
      Nat.shiftLeft_eq]
    norm_num
  have hmMi : binaryOps.multiplier Binary.MEBI = 1048576 := by
    simp only [binaryOps, binaryMultiplier, Binary.MEBI, Int.reduceToNat,
      Nat.shiftLeft_eq]
    norm_num
  have c1 : F64.lt (F64.abs (scaleValue binaryOps Binary.KIBI (.fin 3000)))
      (.fin 1) = false := by
    simp only [scaleValue, hmKi, F64.divc, F64.abs, F64.lt]
    rw [decide_eq_false_iff_not]
    norm_num [qabs]
  have c2 : F64.lt (F64.abs (scaleValue binaryOps Binary.MEBI (.fin 3000)))
      (.fin 1) = true := by
    simp only [scaleValue, hmMi, F64.divc, F64.abs, F64.lt]
    rw [decide_eq_true_eq]
    norm_num [qabs]
  have hloop : autoscaleLoop binaryOps (.fin 3000) Binary.UNIT
      [Binary.KIBI, Binary.MEBI, Binary.GIBI, Binary.TEBI, Binary.PEBI,
        Binary.EXBI, Binary.ZEBI, Binary.YOBI] = Binary.KIBI := by
    rw [autoscaleLoop, c1, if_neg Bool.false_ne_true,
      autoscaleLoop, c2, if_pos rfl]
  have h := autoscale_normal binaryFamily 3000 hn Binary.UNIT
    [Binary.KIBI, Binary.MEBI, Binary.GIBI, Binary.TEBI, Binary.PEBI,
      Binary.EXBI, Binary.ZEBI, Binary.YOBI] rfl
  rw [show binaryFamily.ops = binaryOps from rfl, hloop] at h
  refine ⟨by rw [h], by decide, by decide, ?_,
    by rw [abs_of_pos (by norm_num : (0 : ℚ) < 375 / 128)]; norm_num⟩
  rw [h]
  show (3000 : ℚ) / binaryOps.multiplier Binary.KIBI = 375 / 128
  rw [hmKi]
  norm_num

/-- Claim C4, amended: for every normal value the scaled magnitude chosen
by `autoscale` lies in `[1, R)` where `R` is the ratio between adjacent
prefix multipliers — `1000` for the decimal family and `1024` for the
binary family (not the bases `10` and `2`) — except at the extreme ends
of the prefix range (lower bound waived on the smallest prefix, upper
bound waived on the largest). -/
theorem autoscale_step_interval (q : ℚ) (h : isNormalQ q = true) :
    (decimalOps.exponent (autoscale decimalFamily (.fin q)).2 ≠ -24 →
      1 ≤ |F64.q (autoscale decimalFamily (.fin q)).1|) ∧
    (decimalOps.exponent (autoscale decimalFamily (.fin q)).2 ≠ 24 →
      |F64.q (autoscale decimalFamily (.fin q)).1| < 1000) ∧
    (binaryOps.exponent (autoscale binaryFamily (.fin q)).2 ≠ 0 →
      1 ≤ |F64.q (autoscale binaryFamily (.fin q)).1|) ∧
    (binaryOps.exponent (autoscale binaryFamily (.fin q)).2 ≠ 80 →
      |F64.q (autoscale binaryFamily (.fin q)).1| < 1024) := by
  have hdec := autoscale_interval_aux decimalFamily 1000 decimal_multiplier_pos
    decimal_chain q h Decimal.YOCTO
    [Decimal.ZEPTO, Decimal.ATTO, Decimal.FEMTO, Decimal.PICO, Decimal.NANO,
      Decimal.MICRO, Decimal.MILLI, Decimal.UNIT, Decimal.KILO, Decimal.MEGA,
      Decimal.GIGA, Decimal.TERA, Decimal.PETA, Decimal.EXA, Decimal.ZETTA,
      Decimal.YOTTA] rfl
  have hbin := autoscale_interval_aux binaryFamily 1024 binary_multiplier_pos
    binary_chain q h Binary.UNIT
    [Binary.KIBI, Binary.MEBI, Binary.GIBI, Binary.TEBI, Binary.PEBI,
      Binary.EXBI, Binary.ZEBI, Binary.YOBI] rfl
  refine ⟨fun hexp => hdec.1 fun hc => hexp (by rw [hc]; rfl),
    fun hexp => ?_, fun hexp => hbin.1 fun hc => hexp (by rw [hc]; rfl),
    fun hexp => ?_⟩
  · exact hdec.2 fun hc => hexp (by rw [hc]; rfl)
  · exact hbin.2 fun hc => hexp (by rw [hc]; rfl)

theorem autoscale_step_interval_witness :
    (decimalOps.exponent (autoscale decimalFamily (.fin 5)).2 ≠ -24 →
      1 ≤ |F64.q (autoscale decimalFamily (.fin 5)).1|) ∧
    (decimalOps.exponent (autoscale decimalFamily (.fin 5)).2 ≠ 24 →
      |F64.q (autoscale decimalFamily (.fin 5)).1| < 1000) ∧
    (binaryOps.exponent (autoscale binaryFamily (.fin 5)).2 ≠ 0 →
      1 ≤ |F64.q (autoscale binaryFamily (.fin 5)).1|) ∧
    (binaryOps.exponent (autoscale binaryFamily (.fin 5)).2 ≠ 80 →
      |F64.q (autoscale binaryFamily (.fin 5)).1| < 1024) :=
  autoscale_step_interval 5
    (isNormalQ_of 5 (by norm_num) (by norm_num) (by norm_num))

/-- Claim C7: for every normal value, multiplying the auto-scaled value
by the chosen prefix's multiplier recovers the value, in both the decimal
and binary families.  In the exact model the round trip is exact, which
entails the claimed float-tolerance approximation. -/
theorem autoscale_round_trip (q : ℚ) (h : isNormalQ q = true) :
    F64.q (autoscale decimalFamily (.fin q)).1 *
        decimalOps.multiplier (autoscale decimalFamily (.fin q)).2 = q ∧
    F64.q (autoscale binaryFamily (.fin q)).1 *
        binaryOps.multiplier (autoscale binaryFamily (.fin q)).2 = q := by
  constructor
  · exact autoscale_round_trip_aux decimalFamily
      (fun p => ne_of_gt (decimal_multiplier_pos p)) q h Decimal.YOCTO
      [Decimal.ZEPTO, Decimal.ATTO, Decimal.FEMTO, Decimal.PICO, Decimal.NANO,
        Decimal.MICRO, Decimal.MILLI, Decimal.UNIT, Decimal.KILO, Decimal.MEGA,
        Decimal.GIGA, Decimal.TERA, Decimal.PETA, Decimal.EXA, Decimal.ZETTA,
        Decimal.YOTTA] rfl
  · exact autoscale_round_trip_aux binaryFamily
      (fun p => ne_of_gt (binary_multiplier_pos p)) q h Binary.UNIT
      [Binary.KIBI, Binary.MEBI, Binary.GIBI, Binary.TEBI, Binary.PEBI,
        Binary.EXBI, Binary.ZEBI, Binary.YOBI] rfl

theorem autoscale_round_trip_witness :
    F64.q (autoscale decimalFamily (.fin 5)).1 *
        decimalOps.multiplier (autoscale decimalFamily (.fin 5)).2 = 5 ∧
    F64.q (autoscale binaryFamily (.fin 5)).1 *
        binaryOps.multiplier (autoscale binaryFamily (.fin 5)).2 = 5 :=
  autoscale_round_trip 5
    (isNormalQ_of 5 (by norm_num) (by norm_num) (by norm_num))

/-- Claim C8: for each of the nine binary prefixes, the overridden
`multiplier` (`1u128 << exp` converted to `f64`) equals the trait's
default `base ^ exponent`.  Every value involved is a power of two below
`2 ^ 81`, exactly representable in binary64, so the exact rational model
decides the float equality faithfully. -/
theorem binary_multiplier_refines_default (p : Binary)
    (hp : p ∈ Binary.ALL_PREFIXES) :
    binaryOps.multiplier p
      = defaultMultiplier (binaryOps.base p) (binaryOps.exponent p) := by
  fin_cases hp <;>
  · simp only [binaryOps, binaryMultiplier, defaultMultiplier, qpowi,
      Binary.UNIT, Binary.KIBI, Binary.MEBI, Binary.GIBI, Binary.TEBI,
      Binary.PEBI, Binary.EXBI, Binary.ZEBI, Binary.YOBI, Int.reduceToNat,
      Nat.shiftLeft_eq]
    norm_num

theorem binary_multiplier_refines_default_witness :
    binaryOps.multiplier Binary.KIBI
      = defaultMultiplier (binaryOps.base Binary.KIBI)
          (binaryOps.exponent Binary.KIBI) :=
  binary_multiplier_refines_default Binary.KIBI (by simp [Binary.ALL_PREFIXES])

/-- Claim C5: a Quantity marked integral whose Auto- or Fixed-resolved
prefix has exponent zero is rendered through the native branch — the
value's own display followed only by the (optionally space-separated)
suffix, with no prefix label and no `sigscale` rounding; when the
resolved prefix exponent is nonzero, the integral mark changes nothing
and the quantity is rescaled and rounded as usual. -/
theorem quantity_integral_suppression (P : Type) (F : FamilyOps P)
    (q : Quantity P) (hint : q.integral = true) :
    (q.scale = Scale.auto → F.ops.exponent (autoscale F q.value.float).2 = 0 →
      quantityFmt F q =
        q.value.disp ++ (if q.spc && !q.sfx_str.isEmpty then " " else "")
          ++ q.sfx_str) ∧
    (∀ p : P, q.scale = Scale.fixed p → F.ops.exponent p = 0 →
      quantityFmt F q =
        q.value.disp ++ (if q.spc && !q.sfx_str.isEmpty then " " else "")
          ++ q.sfx_str) ∧
    (q.scale = Scale.auto → F.ops.exponent (autoscale F q.value.float).2 ≠ 0 →
      quantityFmt F q = quantityFmt F { q with integral := false }) ∧
    (∀ p : P, q.scale = Scale.fixed p → F.ops.exponent p ≠ 0 →
      quantityFmt F q = quantityFmt F { q with integral := false }) := by
  refine ⟨?_, ?_, ?_, ?_⟩
  · intro hs hexp
    simp only [quantityFmt, quantityWrite, hs, hint, hexp, Option.filter,
      bne_self_eq_false, Bool.not_true, Bool.or_false, Bool.false_eq_true,
      if_false, String.empty_append]
    split_ifs <;> simp [String.append_assoc, String.append_empty]
  · intro p hs hexp
    simp only [quantityFmt, quantityWrite, hs, hint, hexp, Option.filter,
      bne_self_eq_false, Bool.not_true, Bool.or_false, Bool.false_eq_true,
      if_false, String.empty_append]
    split_ifs <;> simp [String.append_assoc, String.append_empty]
  · intro hs hexp
    have hb : (F.ops.exponent (autoscale F q.value.float).2 != 0) = true :=
      bne_iff_ne.mpr hexp
    simp only [quantityFmt, quantityWrite, hs, hint, hb, Option.filter,
      Bool.not_true, Bool.or_false, Bool.not_false, Bool.or_true, if_true]
  · intro p hs hexp
    have hb : (F.ops.exponent p != 0) = true := bne_iff_ne.mpr hexp
    simp only [quantityFmt, quantityWrite, hs, hint, hb, Option.filter,
      Bool.not_true, Bool.or_false, Bool.not_false, Bool.or_true, if_true]

theorem quantity_integral_suppression_witness :
    quantityFmt binaryFamily
        { value := { float := .fin 10, disp := "10" }, scale := Scale.auto,
          sfx_str := "", nsig := 4, spc := true, integral := true }
      = "10" ++ (if true && !("" : String).isEmpty then " " else "") ++ "" := by
  refine (quantity_integral_suppression Binary binaryFamily
    { value := { float := .fin 10, disp := "10" }, scale := Scale.auto,
      sfx_str := "", nsig := 4, spc := true, integral := true } rfl).1 rfl ?_
  have hn : isNormalQ 10 = true :=
    isNormalQ_of 10 (by norm_num) (by norm_num) (by norm_num)
  have hmKi : binaryOps.multiplier Binary.KIBI = 1024 := by
    simp only [binaryOps, binaryMultiplier, Binary.KIBI, Int.reduceToNat,
      Nat.shiftLeft_eq]
    norm_num
  have c1 : F64.lt (F64.abs (scaleValue binaryOps Binary.KIBI (.fin 10)))
      (.fin 1) = true := by
    simp only [scaleValue, hmKi, F64.divc, F64.abs, F64.lt]
    rw [decide_eq_true_eq]
    norm_num [qabs]
  have hloop : autoscaleLoop binaryOps (.fin 10) Binary.UNIT
      [Binary.KIBI, Binary.MEBI, Binary.GIBI, Binary.TEBI, Binary.PEBI,
        Binary.EXBI, Binary.ZEBI, Binary.YOBI] = Binary.UNIT := by
    rw [autoscaleLoop, c1, if_pos rfl]
  have h := autoscale_normal binaryFamily 10 hn Binary.UNIT
    [Binary.KIBI, Binary.MEBI, Binary.GIBI, Binary.TEBI, Binary.PEBI,
      Binary.EXBI, Binary.ZEBI, Binary.YOBI] rfl
  rw [show binaryFamily.ops = binaryOps from rfl, hloop] at h
  show binaryOps.exponent (autoscale binaryFamily (.fin 10)).2 = 0
  rw [h]
  rfl

/-- The threshold-free (seconds) step is gated only by `keep_going`. -/
theorem stepPart_none (s v : ℚ) (prec : ℕ) (sh lo : String) (pw : PartWriter) :
    stepPart s ⟨none, v, prec, sh, lo⟩ pw
      = if pw.keepGoing then pw.putPart v prec sh lo else pw := by
  simp [stepPart]

/-- The sequential `put_part` blocks of the duration formatter's
decomposition branch are exactly `stepAll` over `durParts`. -/
theorem durationWrite_eq_stepAll (d : HumanDuration) (buf : String)
    (h : ¬ qabs d.seconds < MIN_SECS) :
    durationWrite d buf
      = (stepAll d.seconds (durParts d.seconds) (PartWriter.new buf d)).out := by
  rw [durationWrite, if_neg h]
  simp only [durParts, stepAll]
  rw [stepPart_none]
  rfl

/-- `put_part` appends exactly one rendered component to the buffer. -/
theorem putPart_out (pw : PartWriter) (v : ℚ) (prec : ℕ) (sh lo : String) :
    (pw.putPart v prec sh lo).out
      = pw.out ++ ((if decide (pw.written > 0) && !pw.compact then " " else "")
          ++ fmtFixed prec (if prec = 0 then (⌊v⌋ : ℚ) else v)
          ++ (if pw.compact then sh else " " ++ lo)) := by
  unfold PartWriter.putPart
  split_ifs <;>
    simp [String.append_assoc, String.append_empty, String.empty_append]

/-- `put_part` increments the written count and preserves the cap and the
compact flag. -/
theorem putPart_fields (pw : PartWriter) (v : ℚ) (prec : ℕ) (sh lo : String) :
    (pw.putPart v prec sh lo).written = pw.written + 1 ∧
    (pw.putPart v prec sh lo).parts = pw.parts ∧
    (pw.putPart v prec sh lo).compact = pw.compact :=
  ⟨rfl, rfl, rfl⟩

/-- The conditional `put_part` sequence appends exactly the emission the
specification describes, starting from the current written count. -/
theorem stepAll_spec (s : ℚ) (compact : Bool) (cap : ℤ) :
    ∀ (ps : List DurPart) (pw : PartWriter), pw.parts = cap →
      pw.compact = compact →
      (stepAll s ps pw).out = pw.out ++ specDurGo s compact cap ps pw.written := by
  intro ps
  induction ps with
  | nil =>
    intro pw hp hc
    rw [stepAll, specDurGo, String.append_empty]
  | cons p ps ih =>
    intro pw hp hc
    rw [stepAll]
    by_cases hk : pw.keepGoing = true
    · have hk' : (decide (cap ≤ 0) || decide (pw.written < cap)) = true := by
        have h0 := hk
        unfold PartWriter.keepGoing at h0
        rw [hp] at h0
        exact h0
      cases hthr : p.threshold with
      | some t =>
        by_cases hgate : decide (s > t) = true
        · rw [show stepPart s p pw = pw.putPart p.value p.prec p.short p.long
            from by rw [stepPart, if_pos (by simp [hthr, hk, hgate])]]
          rw [ih (pw.putPart p.value p.prec p.short p.long)
            (by rw [(putPart_fields pw _ _ _ _).2.1, hp])
            (by rw [(putPart_fields pw _ _ _ _).2.2, hc])]
          rw [putPart_out, (putPart_fields pw _ _ _ _).1]
          rw [specDurGo, hk', if_pos rfl]
          simp only [hthr]
          rw [hgate, if_pos rfl, hc]
          simp only [renderPart, String.append_assoc]
        · have hgate' : decide (s > t) = false := by
            revert hgate
            cases decide (s > t) <;> simp
          rw [show stepPart s p pw = pw from by
            rw [stepPart, if_neg (by simp [hthr, hgate'])]]
          rw [ih pw hp hc]
          rw [specDurGo, hk', if_pos rfl]
          simp only [hthr]
          rw [hgate', if_neg Bool.false_ne_true]
      | none =>
        rw [show stepPart s p pw = pw.putPart p.value p.prec p.short p.long
          from by rw [stepPart, if_pos (by simp [hthr, hk])]]
        rw [ih (pw.putPart p.value p.prec p.short p.long)
          (by rw [(putPart_fields pw _ _ _ _).2.1, hp])
          (by rw [(putPart_fields pw _ _ _ _).2.2, hc])]
        rw [putPart_out, (putPart_fields pw _ _ _ _).1]
        rw [specDurGo, hk', if_pos rfl]
        simp only [hthr]
        rw [hc]
        simp only [renderPart, String.append_assoc]
    · have hk0 : pw.keepGoing = false := by
        revert hk
        cases pw.keepGoing <;> simp
      have hk' : (decide (cap ≤ 0) || decide (pw.written < cap)) = false := by
        have h0 := hk0
        unfold PartWriter.keepGoing at h0
        rw [hp] at h0
        exact h0
      rw [show stepPart s p pw = pw from by
        rw [stepPart, if_neg (by simp [hk0])]]
      rw [ih pw hp hc]
      rw [specDurGo, hk', if_neg Bool.false_ne_true]

/-- Claim C3: for every duration whose seconds magnitude is at least 60,
the rendering is the in-order emission of the weeks, days, hours, minutes
and seconds components — weeks `s / 604800`, the others
`(s mod larger-span) / span` — where a gated component is emitted only
when the signed total exceeds its span and the part cap (`≤ 0` meaning
unlimited) is not yet reached, gated components print floored with 0
decimals, and the seconds component always prints with 2 decimals when
reached. -/
theorem duration_decomposition (d : HumanDuration)
    (h : (60 : ℚ) ≤ |d.seconds|) :
    durationFmt d
      = specDurGo d.seconds d.compact d.parts (durParts d.seconds) 0 := by
  have h' : ¬ qabs d.seconds < MIN_SECS := by
    rw [qabs_eq]
    exact not_lt.mpr h
  rw [durationFmt, durationWrite_eq_stepAll d "" h',
    stepAll_spec d.seconds d.compact d.parts (durParts d.seconds)
      (PartWriter.new "" d) rfl rfl]
  exact String.empty_append _

theorem duration_decomposition_witness :
    durationFmt { seconds := 90, compact := true, parts := 3 }
      = specDurGo 90 true 3 (durParts 90) 0 :=
  duration_decomposition { seconds := 90, compact := true, parts := 3 }
    (by norm_num)

/-- Writing a quantity into any buffer appends exactly the text produced
on an empty buffer. -/
theorem quantityWrite_append {P : Type} (F : FamilyOps P) (q : Quantity P)
    (buf : String) :
    quantityWrite F q buf = buf ++ quantityWrite F q "" := by
  simp only [quantityWrite]
  rcases ho : Option.filter (fun sp => F.ops.exponent sp.2 != 0 || !q.integral)
      (match q.scale with
        | Scale.native => none
        | Scale.auto => some (autoscale F q.value.float)
        | Scale.fixed s => some (scaleValue F.ops s q.value.float, s))
    with _ | ⟨sv, sc⟩
  · dsimp only
    by_cases hC : (q.spc && !q.sfx_str.isEmpty) = true
    · rw [if_pos hC, if_pos hC]
      simp [String.append_assoc, String.empty_append]
    · rw [if_neg hC, if_neg hC]
      simp [String.append_assoc, String.empty_append]
  · dsimp only
    by_cases hC : (q.spc && (!(F.ops.label sc).isEmpty || !q.sfx_str.isEmpty))
        = true
    · rw [if_pos hC, if_pos hC]
      simp [String.append_assoc, String.empty_append]
    · rw [if_neg hC, if_neg hC]
      simp [String.append_assoc, String.empty_append]

/-- Claim C9: rendering is deterministic and free of hidden state:
writing a configured Quantity or HumanDuration into any formatter buffer
appends exactly the text produced on an empty buffer, so the output is a
pure function of the configured value and rendering the same value twice
yields identical strings. -/
theorem render_deterministic (P : Type) (F : FamilyOps P) (q : Quantity P)
    (d : HumanDuration) (buf bufd : String) :
    quantityWrite F q buf = buf ++ quantityWrite F q "" ∧
    durationWrite d bufd = bufd ++ durationWrite d "" := by
  refine ⟨quantityWrite_append F q buf, ?_⟩
  by_cases h : qabs d.seconds < MIN_SECS
  · rw [durationWrite, if_pos h, quantityWrite_append]
    conv_rhs => rw [durationWrite, if_pos h]
  · rw [durationWrite_eq_stepAll d bufd h,
      stepAll_spec d.seconds d.compact d.parts (durParts d.seconds)
        (PartWriter.new bufd d) rfl rfl,
      durationWrite_eq_stepAll d "" h,
      stepAll_spec d.seconds d.compact d.parts (durParts d.seconds)
        (PartWriter.new "" d) rfl rfl]
    show bufd ++ specDurGo d.seconds d.compact d.parts (durParts d.seconds) 0
      = bufd ++ ("" ++ specDurGo d.seconds d.compact d.parts (durParts d.seconds) 0)
    rw [String.empty_append]

/-- For seconds at or below `-60`, every gated component is skipped and
only the seconds part is emitted. -/
theorem duration_neg_fmt (d : HumanDuration) (h : d.seconds ≤ -60) :
    durationFmt d = fmtFixed 2 (rustRem d.seconds MIN_SECS)
      ++ (if d.compact then "s" else " seconds") := by
  have h' : ¬ qabs d.seconds < MIN_SECS := by
    rw [qabs_eq, abs_of_nonpos (by linarith)]
    show ¬ (-d.seconds < 60)
    linarith
  rw [durationFmt, durationWrite_eq_stepAll d "" h',
    stepAll_spec d.seconds d.compact d.parts (durParts d.seconds)
      (PartWriter.new "" d) rfl rfl]
  show "" ++ specDurGo d.seconds d.compact d.parts (durParts d.seconds) 0 = _
  rw [String.empty_append]
  have g1 : decide (d.seconds > WEEK_SECS) = false := by
    rw [decide_eq_false_iff_not, not_lt]
    unfold WEEK_SECS DAY_SECS HOUR_SECS MIN_SECS
    linarith
  have g2 : decide (d.seconds > DAY_SECS) = false := by
    rw [decide_eq_false_iff_not, not_lt]
    unfold DAY_SECS HOUR_SECS MIN_SECS
    linarith
  have g3 : decide (d.seconds > HOUR_SECS) = false := by
    rw [decide_eq_false_iff_not, not_lt]
    unfold HOUR_SECS MIN_SECS
    linarith
  have g4 : decide (d.seconds > MIN_SECS) = false := by
    rw [decide_eq_false_iff_not, not_lt]
    unfold MIN_SECS
    linarith
  have gfinal : (decide (d.parts ≤ 0) || decide ((0 : ℤ) < d.parts)) = true := by
    rcases le_or_lt d.parts 0 with hle | hlt
    · simp [hle]
    · simp [hlt]
  simp only [durParts, specDurGo, g1, g2, g3, g4, gfinal, Bool.false_eq_true,
    if_false, ite_self, if_true, renderPart]
  simp [String.append_empty]

/-- Claim C10: for seconds `≤ -60` every week/day/hour/minute gate
compares the signed value against a positive span and fails, so the
rendering is exactly one part: the Rust remainder `s % 60` — a value in
`(-60, 0]` — printed with two decimals and the seconds unit; in
particular `-90` seconds renders compactly as `"-30.00s"`. -/
theorem duration_negative_single_part (d : HumanDuration)
    (h : d.seconds ≤ -60) :
    durationFmt d = fmtFixed 2 (rustRem d.seconds MIN_SECS)
        ++ (if d.compact then "s" else " seconds") ∧
    (-60 < rustRem d.seconds MIN_SECS ∧ rustRem d.seconds MIN_SECS ≤ 0) ∧
    durationFmt { seconds := -90, compact := true, parts := 3 }
      = "-30.00s" := by
  have hdiv : d.seconds / 60 < 0 :=
    div_neg_of_neg_of_pos (by linarith) (by norm_num)
  have hceil1 : (⌈d.seconds / 60⌉ : ℚ) < d.seconds / 60 + 1 :=
    Int.ceil_lt_add_one _
  have hceil2 : d.seconds / 60 ≤ (⌈d.seconds / 60⌉ : ℚ) := Int.le_ceil _
  have hs : d.seconds / 60 * 60 = d.seconds :=
    div_mul_cancel₀ _ (by norm_num)
  have hrem : rustRem d.seconds MIN_SECS
      = d.seconds - 60 * (⌈d.seconds / 60⌉ : ℚ) := by
    unfold rustRem truncQ MIN_SECS
    rw [if_neg (not_le.mpr hdiv)]
  refine ⟨duration_neg_fmt d h, ⟨?_, ?_⟩, ?_⟩
  · rw [hrem]
    nlinarith [hceil1, hs]
  · rw [hrem]
    nlinarith [hceil2, hs]
  · rw [duration_neg_fmt { seconds := -90, compact := true, parts := 3 }
      (by norm_num)]
    have hceil : ⌈(-90 : ℚ) / 60⌉ = -1 := by
      rw [show (-90 : ℚ) / 60 = -(3 / 2) by norm_num, Int.ceil_neg]
      rw [show ⌊(3 : ℚ) / 2⌋ = 1 from by
        rw [Int.floor_eq_iff]
        norm_num]
    have hr : rustRem (-90 : ℚ) MIN_SECS = -30 := by
      unfold rustRem truncQ MIN_SECS
      rw [if_neg (by norm_num), hceil]
      norm_num
    show fmtFixed 2 (rustRem (-90 : ℚ) MIN_SECS) ++ "s" = "-30.00s"
    rw [hr]
    norm_num [fmtFixed, qabs, roundTE, zeroPad]
    rfl

theorem duration_negative_single_part_witness :
    (durationFmt { seconds := -90, compact := false, parts := 3 }
        = fmtFixed 2 (rustRem (-90 : ℚ) MIN_SECS)
          ++ (if false then "s" else " seconds")) ∧
    (-60 < rustRem (-90 : ℚ) MIN_SECS ∧ rustRem (-90 : ℚ) MIN_SECS ≤ 0) ∧
    durationFmt { seconds := -90, compact := true, parts := 3 }
      = "-30.00s" :=
  duration_negative_single_part { seconds := -90, compact := false, parts := 3 }
    (by norm_num)

/-- Loop step: a candidate whose scaled magnitude is at least one is
adopted and the loop continues. -/
theorem loop_cons_ge {P : Type} (ops : PfxOps P) (q m : ℚ) (next : P)
    (rest : List P) (cur : P) (hm : ops.multiplier next = m)
    (h : ¬ |q / m| < 1) :
    autoscaleLoop ops (.fin q) cur (next :: rest)
      = autoscaleLoop ops (.fin q) next rest := by
  rw [autoscaleLoop]
  have hc : F64.lt (F64.abs (scaleValue ops next (.fin q))) (.fin 1) = false := by
    simp [scaleValue, F64.divc, F64.abs, F64.lt, qabs_eq, hm, h]
  rw [hc, if_neg Bool.false_ne_true]

/-- Loop step: a candidate whose scaled magnitude is below one stops the
loop, keeping the current prefix. -/
theorem loop_cons_lt {P : Type} (ops : PfxOps P) (q m : ℚ) (next : P)
    (rest : List P) (cur : P) (hm : ops.multiplier next = m)
    (h : |q / m| < 1) :
    autoscaleLoop ops (.fin q) cur (next :: rest) = cur := by
  rw [autoscaleLoop]
  have hc : F64.lt (F64.abs (scaleValue ops next (.fin q))) (.fin 1) = true := by
    simp [scaleValue, F64.divc, F64.abs, F64.lt, qabs_eq, hm, h]
  rw [hc, if_pos rfl]

/-- Rendering of an auto-scaled, non-integral quantity, given the
resolved autoscale result. -/
theorem quantityFmt_auto {P : Type} (F : FamilyOps P) (v : QVal)
    (sfx : String) (n : ℕ) (b : Bool) (sv : F64) (p : P)
    (ha : autoscale F v.float = (sv, p)) :
    quantityFmt F { value := v, scale := Scale.auto, sfx_str := sfx,
                    nsig := n, spc := b, integral := false }
      = (if b && (!(F.ops.label p).isEmpty || !sfx.isEmpty) then
          fmtF64 (sigscale sv n).2 (sigscale sv n).1 ++ " "
        else fmtF64 (sigscale sv n).2 (sigscale sv n).1)
        ++ F.ops.label p ++ sfx := by
  simp only [quantityFmt, quantityWrite]
  rw [show Option.filter
      (fun sp => F.ops.exponent sp.2 != 0 || !(false : Bool))
      (some (autoscale F v.float)) = some (autoscale F v.float) from by
    simp [Option.filter]]
  rw [ha]
  dsimp only
  split_ifs <;> simp [String.empty_append]

/-- Claim C6: a duration below one minute in magnitude is rendered as the
raw seconds formatted as a decimal auto-scaled Quantity with suffix `"s"`,
4 significant figures (the `scalar` defaults) and the space flag set to
the negation of the compact flag; in particular `0.324` seconds in
compact mode renders as `"324.0ms"`. -/
theorem duration_subminute :
    (∀ d : HumanDuration, |d.seconds| < 60 →
      durationFmt d = quantityFmt decimalFamily
        (((scalar { float := .fin d.seconds, disp := f64Display d.seconds }).suffix
          "s").space (!d.compact))) ∧
    (∀ (v : QVal) (b : Bool),
      ((scalar v).suffix "s").space b
        = { value := v, scale := Scale.auto, sfx_str := "s", nsig := 4,
            spc := b, integral := false }) ∧
    durationFmt (seconds (324 / 1000)) = "324.0ms" := by
  refine ⟨?_, fun v b => rfl, ?_⟩
  · intro d h
    rw [durationFmt, durationWrite, if_pos (show qabs d.seconds < MIN_SECS from by
      rw [qabs_eq]
      exact h)]
    rfl
  · have habs : |(324 / 1000 : ℚ)| = 324 / 1000 :=
      abs_of_pos (by norm_num)
    have hn : isNormalQ (324 / 1000 : ℚ) = true :=
      isNormalQ_of _ (by norm_num) (by rw [habs]; norm_num)
        (by rw [habs]; norm_num)
    have hloop : autoscaleLoop decimalOps (.fin (324 / 1000)) Decimal.YOCTO
        [Decimal.ZEPTO, Decimal.ATTO, Decimal.FEMTO, Decimal.PICO,
          Decimal.NANO, Decimal.MICRO, Decimal.MILLI, Decimal.UNIT,
          Decimal.KILO, Decimal.MEGA, Decimal.GIGA, Decimal.TERA,
          Decimal.PETA, Decimal.EXA, Decimal.ZETTA, Decimal.YOTTA]
        = Decimal.MILLI := by
      rw [loop_cons_ge decimalOps (324 / 1000) (1 / 10 ^ 21) Decimal.ZEPTO _ _
        (by norm_num [decimalOps, defaultMultiplier, qpowi, Decimal.ZEPTO])
        (by rw [abs_of_pos (by norm_num)]; norm_num)]
      rw [loop_cons_ge decimalOps (324 / 1000) (1 / 10 ^ 18) Decimal.ATTO _ _
        (by norm_num [decimalOps, defaultMultiplier, qpowi, Decimal.ATTO])
        (by rw [abs_of_pos (by norm_num)]; norm_num)]
      rw [loop_cons_ge decimalOps (324 / 1000) (1 / 10 ^ 15) Decimal.FEMTO _ _
        (by norm_num [decimalOps, defaultMultiplier, qpowi, Decimal.FEMTO])
        (by rw [abs_of_pos (by norm_num)]; norm_num)]
      rw [loop_cons_ge decimalOps (324 / 1000) (1 / 10 ^ 12) Decimal.PICO _ _
        (by norm_num [decimalOps, defaultMultiplier, qpowi, Decimal.PICO])
        (by rw [abs_of_pos (by norm_num)]; norm_num)]
      rw [loop_cons_ge decimalOps (324 / 1000) (1 / 10 ^ 9) Decimal.NANO _ _
        (by norm_num [decimalOps, defaultMultiplier, qpowi, Decimal.NANO])
        (by rw [abs_of_pos (by norm_num)]; norm_num)]
      rw [loop_cons_ge decimalOps (324 / 1000) (1 / 10 ^ 6) Decimal.MICRO _ _
        (by norm_num [decimalOps, defaultMultiplier, qpowi, Decimal.MICRO])
        (by rw [abs_of_pos (by norm_num)]; norm_num)]
      rw [loop_cons_ge decimalOps (324 / 1000) (1 / 10 ^ 3) Decimal.MILLI _ _
        (by norm_num [decimalOps, defaultMultiplier, qpowi, Decimal.MILLI])
        (by rw [abs_of_pos (by norm_num)]; norm_num)]
      rw [loop_cons_lt decimalOps (324 / 1000) 1 Decimal.UNIT _ _
        (by norm_num [decimalOps, defaultMultiplier, qpowi, Decimal.UNIT])
        (by rw [abs_of_pos (by norm_num)]; norm_num)]
    have ha := autoscale_normal decimalFamily (324 / 1000) hn Decimal.YOCTO
      [Decimal.ZEPTO, Decimal.ATTO, Decimal.FEMTO, Decimal.PICO,
        Decimal.NANO, Decimal.MICRO, Decimal.MILLI, Decimal.UNIT,
        Decimal.KILO, Decimal.MEGA, Decimal.GIGA, Decimal.TERA,
        Decimal.PETA, Decimal.EXA, Decimal.ZETTA, Decimal.YOTTA] rfl
    rw [show decimalFamily.ops = decimalOps from rfl, hloop] at ha
    have hsv : scaleValue decimalOps Decimal.MILLI (.fin (324 / 1000))
        = .fin 324 := by
      show F64.fin (324 / 1000 / decimalOps.multiplier Decimal.MILLI)
        = F64.fin 324
      rw [show decimalOps.multiplier Decimal.MILLI = 1 / 10 ^ 3 from by
        norm_num [decimalOps, defaultMultiplier, qpowi, Decimal.MILLI]]
      norm_num
    rw [hsv] at ha
    have hcast : ((324 : ℕ) : ℚ) = (324 : ℚ) := by norm_num
    have hclog : Int.clog 10 (324 : ℚ) = 3 := by
      rw [← hcast, Int.clog_natCast]
      have h1 : Nat.clog 10 324 ≤ 3 :=
        (Nat.le_pow_iff_clog_le (by norm_num)).mp (by norm_num)
      have h2 : ¬ Nat.clog 10 324 ≤ 2 := by
        intro hcl
        have h3 := (Nat.le_pow_iff_clog_le (by norm_num)).mpr hcl
        norm_num at h3
      omega
    have hq324 : qabs (324 : ℚ) = 324 := by norm_num [qabs]
    have hn324 : isNormalQ 324 = true :=
      isNormalQ_of 324 (by norm_num) (by norm_num) (by norm_num)
    have hsig : sigscale (.fin 324) 4 = (.fin 324, 1) := by
      simp only [sigscale, hn324, if_true, hq324, hclog]
      rw [if_neg (by norm_num)]
      rw [show ((4 : ℕ) : ℤ) - 3 = 1 from by norm_num]
      rw [show roundHA (324 * 10 ^ (1 : ℤ)) = 3240 from by
        unfold roundHA
        rw [if_pos (by norm_num)]
        rw [show (324 : ℚ) * 10 ^ (1 : ℤ) + 1 / 2 = 6481 / 2 from by norm_num]
        rw [Int.floor_eq_iff]
        norm_num]
      norm_num
    have hfmt : fmtF64 1 (.fin 324) = "324.0" := by
      show fmtFixed 1 324 = "324.0"
      unfold fmtFixed
      rw [show roundTE (qabs 324 * 10 ^ 1) = 3240 from by
        unfold roundTE
        rw [show qabs (324 : ℚ) * 10 ^ 1 = 3240 from by norm_num [qabs]]
        rw [show ⌊(3240 : ℚ)⌋ = 3240 from by rw [Int.floor_eq_iff]; norm_num]
        rw [if_pos (by norm_num)]]
      norm_num [zeroPad]
      rfl
    rw [durationFmt, durationWrite, if_pos (show qabs ((seconds (324 / 1000)).seconds) < MIN_SECS from by
      norm_num [seconds, HumanDuration.new_from_secs, qabs, MIN_SECS])]
    show quantityFmt decimalFamily
        { value := { float := .fin (324 / 1000 : ℚ),
                     disp := f64Display (324 / 1000 : ℚ) },
          scale := Scale.auto, sfx_str := "s", nsig := 4, spc := false,
          integral := false }
      = "324.0ms"
    rw [quantityFmt_auto decimalFamily _ "s" 4 false (.fin 324) Decimal.MILLI ha]
    rw [hsig]
    simp only [Bool.false_and, Bool.false_eq_true, if_false]
    rw [hfmt]
    rfl

theorem duration_subminute_witness :
    durationFmt { seconds := 1 / 2, compact := true, parts := 3 }
      = quantityFmt decimalFamily
        (((scalar { float := .fin (1 / 2 : ℚ),
                    disp := f64Display (1 / 2 : ℚ) }).suffix "s").space (!true)) :=
  duration_subminute.1 { seconds := 1 / 2, compact := true, parts := 3 }
    (by rw [show |(1 / 2 : ℚ)| = 1 / 2 from abs_of_pos (by norm_num)]
        norm_num)

end Friendly
